import Mathlib

/-
Verification development for the log-derived timeline reconstruction core of
the Azursmartmix-control repository (src/azursmartmix_control/docker_client.py).

The Python code is shallowly embedded over `List Char` / `String`:
- Python `str` is modelled as Lean `String` (a wrapper around `List Char`);
  character-level work happens on `List Char`.
- Python whitespace (`str.strip`, regex `\s`) is modelled by the six ASCII
  whitespace characters; `str.lower` and the case-insensitive regex flags are
  modelled ASCII-wise (the log material this code processes is ASCII).
- Python regexes used by the source are compiled by hand into deterministic
  scanners that implement the leftmost-match / greedy / lazy semantics of the
  concrete patterns, as documented at each definition.
- Python dicts returned by the source are modelled as structures whose field
  set is the union of the fields over the branches (fields absent in a branch
  become `none` / a default), as documented at each structure.
-/

/-- ASCII whitespace, the model of Python `str.strip` / regex `\s` whitespace. -/
def isSpace (c : Char) : Bool :=
  c = ' ' || c = '\t' || c = '\n' || c = '\r' || c = '\x0b' || c = '\x0c'

/-- Model of regex `\w` (word character), ASCII: letters, digits, underscore. -/
def isWordChar (c : Char) : Bool :=
  ('a' ≤ c && c ≤ 'z') || ('A' ≤ c && c ≤ 'Z') || ('0' ≤ c && c ≤ '9') || c = '_'

/-- The 26 ASCII upper/lower case pairs. -/
def upPairs : List (Char × Char) :=
  [('A', 'a'), ('B', 'b'), ('C', 'c'), ('D', 'd'), ('E', 'e'), ('F', 'f'),
   ('G', 'g'), ('H', 'h'), ('I', 'i'), ('J', 'j'), ('K', 'k'), ('L', 'l'),
   ('M', 'm'), ('N', 'n'), ('O', 'o'), ('P', 'p'), ('Q', 'q'), ('R', 'r'),
   ('S', 's'), ('T', 't'), ('U', 'u'), ('V', 'v'), ('W', 'w'), ('X', 'x'),
   ('Y', 'y'), ('Z', 'z')]

/-- The 26 ASCII uppercase letters, as a table test. -/
def isUpperA (c : Char) : Bool :=
  upPairs.any (fun p => decide (c = p.1))

/-- ASCII model of Python `str.lower` on one character, table-driven to keep
all reasoning purely propositional. -/
def lowerChar (c : Char) : Char :=
  match upPairs.find? (fun p => decide (c = p.1)) with
  | some p => p.2
  | none => c

/-- Model of Python `str.lower` (ASCII range). -/
def asciiLower (l : List Char) : List Char := l.map lowerChar

/-- Leading-whitespace strip (left half of Python `str.strip`). -/
def trimLeft (l : List Char) : List Char := l.dropWhile isSpace

/-- Trailing-whitespace strip (right half of Python `str.strip`). -/
def trimRight (l : List Char) : List Char := (l.reverse.dropWhile isSpace).reverse

/-- Model of Python `str.strip()` (no arguments): remove leading and trailing
whitespace. -/
def pyStrip (l : List Char) : List Char := trimRight (trimLeft l)

/-- `pyStrip` lifted to `String`, the model of Python `s.strip()`. -/
def pyStripS (s : String) : String := ⟨pyStrip s.data⟩

/-- Model of `os.path.basename` on POSIX: the part after the last `/`. -/
def basename (l : List Char) : List Char :=
  (l.reverse.takeWhile (fun c => c ≠ '/')).reverse

/-- Caseless (ASCII) equality test of a list against a (lowercase) pattern. -/
def caselessStartsWith (l : List Char) (pat : List Char) : Bool :=
  (asciiLower l).take pat.length = pat

/-- Caseless (ASCII) suffix test against a (lowercase) pattern. -/
def caselessEndsWith (l : List Char) (pat : List Char) : Bool :=
  (asciiLower l).drop (l.length - pat.length) = pat && pat.length ≤ l.length

/-- The audio extension alternation `(mp3|wav|flac|ogg|m4a|aac)` of the source,
as a caseless suffix test returning the matched suffix length (including the
leading dot).  At most one alternative can match, since the alternatives
differ within the common suffix positions. -/
def extSuffixLen (l : List Char) : Option Nat :=
  if caselessEndsWith l ".mp3".data then some 4
  else if caselessEndsWith l ".wav".data then some 4
  else if caselessEndsWith l ".flac".data then some 5
  else if caselessEndsWith l ".ogg".data then some 4
  else if caselessEndsWith l ".m4a".data then some 4
  else if caselessEndsWith l ".aac".data then some 4
  else none

/-- Model of `re.sub(r"\.(mp3|wav|flac|ogg|m4a|aac)$", "", s, flags=IGNORECASE)`
(used by `normalize_title` / `display_title`).  Python `$` (no MULTILINE)
matches at the end of the string or just before one final newline, so the
suffix may also sit immediately before a terminal `'\n'`. -/
def stripExtDollar (l : List Char) : List Char :=
  match extSuffixLen l with
  | some k => l.take (l.length - k)
  | none =>
    match l.getLast? with
    | some '\n' =>
      let core := l.take (l.length - 1)
      match extSuffixLen core with
      | some k => core.take (core.length - k) ++ ['\n']
      | none => l
    | _ => l

/-- Model of Python `s.replace("_-_", " - ")`: left-to-right, non-overlapping. -/
def replaceSep3 : List Char → List Char
  | '_' :: '-' :: '_' :: rest2 => ' ' :: '-' :: ' ' :: replaceSep3 rest2
  | c :: rest => c :: replaceSep3 rest
  | [] => []

/-- Model of Python `s.replace("_", " ")`. -/
def replaceUnderscore (l : List Char) : List Char :=
  l.map (fun c => if c = '_' then ' ' else c)

/-- Model of `re.sub(r"\s+", " ", s)`: each maximal whitespace run becomes one
space. -/
def collapseWs : List Char → List Char
  | [] => []
  | [c] => if isSpace c then [' '] else [c]
  | c1 :: c2 :: rest =>
    if isSpace c1 && isSpace c2 then collapseWs (c2 :: rest)
    else (if isSpace c1 then ' ' else c1) :: collapseWs (c2 :: rest)

/-- The cleaning pipeline shared by `normalize_title` and `display_title`
(docker_client.py lines 275-280 / 287-292): strip, basename, extension strip,
`_-_` to ` - `, underscores to spaces, whitespace collapse, strip. -/
def titleCleanCore (l : List Char) : List Char :=
  pyStrip (collapseWs (replaceUnderscore (replaceSep3 (stripExtDollar (basename (pyStrip l))))))

/-- Embedding of `DockerClient.normalize_title` (docker_client.py 271-281):
empty in, empty out; otherwise the cleaning pipeline followed by lowercasing. -/
def normalize_title (s : String) : String :=
  if s.data = [] then "" else ⟨asciiLower (titleCleanCore s.data)⟩

/-- Embedding of `DockerClient.display_title` (docker_client.py 283-293):
the same cleaning pipeline, case preserved. -/
def display_title (s : String) : String :=
  if s.data = [] then "" else ⟨titleCleanCore s.data⟩

/-- Model of Python `str.lower` on a whole string (ASCII range). -/
def pyLower (s : String) : String := ⟨asciiLower s.data⟩

/-- Embedding of `DockerClient._dedupe_keep_order` (docker_client.py 258-267),
with the mutable `seen` set modelled as an accumulated list. -/
def dedupeKeepOrderAux (seen : List String) : List String → List String
  | [] => []
  | x :: xs =>
    if x ∈ seen then dedupeKeepOrderAux seen xs
    else x :: dedupeKeepOrderAux (x :: seen) xs

/-- `_dedupe_keep_order`: keep the first occurrence of every element, in order. -/
def dedupe_keep_order (items : List String) : List String :=
  dedupeKeepOrderAux [] items

/-- Model of the Python slice `l[i:]` for an arbitrary (possibly negative)
integer start. -/
def pySliceFrom {α : Type} (l : List α) (i : Int) : List α :=
  if 0 ≤ i then l.drop i.toNat else l.drop ((l.length + i).toNat)

/-- Model of the Python slice `l[:n]` for an arbitrary (possibly negative)
integer stop. -/
def pySliceTo {α : Type} (l : List α) (n : Int) : List α :=
  if 0 ≤ n then l.take n.toNat else l.take ((l.length + n).toNat)

/-- Model of Python `str.splitlines`, worker: splits on `\n`, `\r\n`, `\r`,
`\x0b`, `\x0c` (the rarer Unicode line boundaries of `str.splitlines` are not
used by the embedded log material and are omitted). -/
def splitlinesGo (cur : List Char) : List Char → List (List Char)
  | [] => [cur.reverse]
  | '\r' :: '\n' :: r => cur.reverse :: splitlinesGo [] r
  | '\n' :: r => cur.reverse :: splitlinesGo [] r
  | '\r' :: r => cur.reverse :: splitlinesGo [] r
  | '\x0b' :: r => cur.reverse :: splitlinesGo [] r
  | '\x0c' :: r => cur.reverse :: splitlinesGo [] r
  | c :: r => splitlinesGo (c :: cur) r

/-- Drop one final empty piece (Python `splitlines` yields no empty final line
for text ending in a terminator). -/
def dropFinalEmpty (parts : List (List Char)) : List (List Char) :=
  match parts.reverse with
  | [] :: rest => rest.reverse
  | _ => parts

/-- Model of Python `txt.splitlines()`. -/
def pySplitlines (l : List Char) : List (List Char) :=
  if l = [] then [] else dropFinalEmpty (splitlinesGo [] l)

example : pySplitlines "a\n\nb\n".data = ["a".data, [], "b".data] := by decide
example : pySplitlines "".data = [] := by decide
example : pySplitlines "a".data = ["a".data] := by decide

/-- Case-sensitive literal prefix test (Python `str.startswith`). -/
def startsWithLit (l : List Char) (pat : List Char) : Bool :=
  l.take pat.length = pat

/-- ASCII digit test (regex `\d`, ASCII model). -/
def isDigit (c : Char) : Bool := '0' ≤ c && c ≤ '9'

/-- One attempt of `_RE_PREPROCESS` = `\bpreprocess:\s*(?P<rest>.+?)\s*$`
(IGNORECASE) at the current position: the position must start the caseless
literal `preprocess:` and be followed by at least one character (`.+?` needs
one).  The returned value is the `rest` group: with lazy `.+?` bracketed by
greedy `\s*` and `\s*$`, the group is the trimmed tail when the tail has a
non-space character, and otherwise backtracking leaves exactly the last
(whitespace) character in the group. -/
def preprocessRestAt (l : List Char) : Option (List Char) :=
  if caselessStartsWith l "preprocess:".data && decide (11 < l.length) then
    let tail := l.drop 11
    some (if tail.any (fun c => !isSpace c) then pyStrip tail
          else match tail.getLast? with | some c => [c] | none => [])
  else none

/-- Leftmost-match scan for `_RE_PREPROCESS`: try every position left to right;
the `\b` before `p` requires the previous character to be a non-word character
(or start of line), tracked by `prevWord`. -/
def findPreprocessGo (prevWord : Bool) : List Char → Option (List Char)
  | [] => none
  | c :: rest =>
    match (if !prevWord then preprocessRestAt (c :: rest) else none) with
    | some g => some g
    | none => findPreprocessGo (isWordChar c) rest

/-- `_RE_PREPROCESS.search(line)`, returning the `rest` group on a match. -/
def searchPreprocess (line : List Char) : Option (List Char) :=
  findPreprocessGo false line

/-- Model of `_RE_LEADING_IDX.sub("", s)` with `_RE_LEADING_IDX` =
`^\s*\d+\s*[\.\)]\s*`: remove a leading ordinal such as `1. ` or `1) `
(anchored, greedy, hence deterministic); no match leaves `s` unchanged. -/
def leadingIdxStrip (l : List Char) : List Char :=
  let s1 := l.dropWhile isSpace
  let ds := s1.takeWhile isDigit
  if ds = [] then l
  else
    match (s1.drop ds.length).dropWhile isSpace with
    | '.' :: r => r.dropWhile isSpace
    | ')' :: r => r.dropWhile isSpace
    | _ => l

/-- Find the first occurrence of the two-character separator `->` and return
the part before it (Python `"->" in s` + `s.split("->", 1)[0]`). -/
def findArrowGo (acc : List Char) : List Char → Option (List Char)
  | [] => none
  | '-' :: '>' :: _ => some acc.reverse
  | c :: r => findArrowGo (c :: acc) r

/-- Model of `_RE_PAREN_TRAIL.sub("", s)` with `_RE_PAREN_TRAIL` =
`\s*\(.*\)\s*$`: the pattern matches iff the last non-whitespace character is
`)` and some `(` occurs strictly before it; the leftmost match starts at the
whitespace run preceding the first `(`, and the whole tail from there is
removed, which equals `trimRight` of the part before that first `(`. -/
def parenTrailStrip (l : List Char) : List Char :=
  let rt := trimRight l
  match rt.getLast? with
  | some ')' =>
    match l.findIdx? (fun c => c = '(') with
    | some j => if j + 1 < rt.length then trimRight (l.take j) else l
    | none => l
  | _ => l

/-- Model of `_RE_EXT.sub("", s)` with `_RE_EXT` =
`\.(mp3|wav|flac|ogg|m4a|aac)\s*$` (IGNORECASE): since `\s*` may absorb any
trailing whitespace (including a final newline), the pattern matches iff the
right-trimmed string ends with an audio extension, and the match is removed
together with the trailing whitespace. -/
def stripExtWs (l : List Char) : List Char :=
  let rt := trimRight l
  match extSuffixLen rt with
  | some k => rt.take (rt.length - k)
  | none => l

/-- Embedding of `DockerClient._clean_preprocess_title` (docker_client.py
297-315): ordinal strip, arrow split, parenthetical strip, basename,
extension strip, separator/underscore replacement, whitespace collapse;
`None` when the result is empty. -/
def clean_preprocess_title (rest : List Char) : Option String :=
  let s0 := pyStrip rest
  if s0 = [] then none
  else
    let s1 := pyStrip (leadingIdxStrip s0)
    let s2 := match findArrowGo [] s1 with
              | some pre => pyStrip pre
              | none => s1
    let s3 := pyStrip (parenTrailStrip s2)
    let s4 := basename s3
    let s5 := pyStrip (stripExtWs s4)
    let s6 := replaceSep3 s5
    let s7 := replaceUnderscore s6
    let s8 := pyStrip (collapseWs s7)
    if s8 = [] then none else some ⟨s8⟩

/-- Result of `extract_preprocess_titles`, a structure view of the Python
dict.  `error` is `none` in the success branch; `count` (present only in the
success dict) is 0 in the failure branch. -/
structure ExtractTitlesResult where
  ok : Bool
  source : String
  error : Option String
  titles : List String
  count : Nat
deriving DecidableEq

/-- Embedding of `DockerClient.extract_preprocess_titles` (docker_client.py
317-332) as a function of the fetched log text (the `tail_logs` collaborator
output): a structured failure on empty text or on a `[control]` error marker,
otherwise one cleaned title per matching `preprocess:` line. -/
def extract_preprocess_titles (txt : String) : ExtractTitlesResult :=
  if txt.data = [] then ⟨false, "engine_logs", some "empty logs", [], 0⟩
  else if startsWithLit txt.data "[control]".data then
    ⟨false, "engine_logs", some (pyStripS txt), [], 0⟩
  else
    let titles := (pySplitlines txt.data).filterMap (fun line =>
      match searchPreprocess line with
      | none => none
      | some g => clean_preprocess_title (pyStrip g))
    ⟨true, "engine_logs", none, titles, titles.length⟩

/-- Result of the upcoming reconstructions, a structure view of the Python
dicts.  `current_title_found` and `current_title` are absent from the failure
dicts and are `none` there. -/
structure UpcomingResult where
  ok : Bool
  source : String
  error : Option String
  current_title_found : Option Bool
  current_title : Option String
  upcoming : List String
deriving DecidableEq

/-- Index of the last element satisfying `p` (the Python backward scan
`for i in range(len(xs) - 1, -1, -1)` with a `break` on first hit). -/
def lastIdxP (p : α → Bool) : List α → Option Nat
  | [] => none
  | x :: xs =>
    match lastIdxP p xs with
    | some j => some (j + 1)
    | none => if p x then some 0 else none

/-- Embedding of `DockerClient.compute_upcoming_from_preprocess`
(docker_client.py 334-357) as a function of the fetched engine log text:
backward scan for the last title whose trimmed form equals the trimmed current
title; elements after it are deduplicated and cut to `n`; when not found the
fallback is the last `n * 4` titles. -/
def compute_upcoming_from_preprocess (txt : String) (current_title : Option String)
    (n : Int) : UpcomingResult :=
  let data := extract_preprocess_titles txt
  if !data.ok then ⟨false, "engine_logs", data.error, none, none, []⟩
  else
    let titles := data.titles.filter (fun t => pyStripS t != "")
    if titles = [] then
      ⟨false, "engine_logs", some "no preprocess titles found", none, none, []⟩
    else
      let cur := pyStripS (current_title.getD "")
      let startIdx : Option Nat :=
        if cur ≠ "" then (lastIdxP (fun t => pyStripS t == cur) titles).map (· + 1)
        else none
      match startIdx with
      | none =>
        let chunk := dedupe_keep_order (pySliceFrom titles (-(n * 4)))
        ⟨true, "engine_logs_fallback_tail", none, some false, current_title,
          pySliceTo chunk n⟩
      | some s =>
        let chunk2 := dedupe_keep_order (titles.drop s)
        ⟨true, "engine_logs_after_current", none, some true, current_title,
          pySliceTo chunk2 n⟩

/-- True when the next character is a non-word character or the end of the
input: the model of a regex `\b` placed after a word character. -/
def wordBoundaryAfter (l : List Char) : Bool :=
  match l.head? with
  | some c => !isWordChar c
  | none => true

/-- Match the timestamp shape `\d{4}-\d{2}-\d{2}\s+\d{2}:\d{2}:\d{2},\d{3}` at
the start of the input, returning the matched span and the remainder.  The
inner `\s+` is greedy and deterministic here, because the following `\d{2}`
cannot begin with whitespace. -/
def matchTsAt (l : List Char) : Option (List Char × List Char) :=
  let date := l.take 10
  if decide (date.length = 10) && (date.take 4).all isDigit &&
     decide (date.get? 4 = some '-') && ((date.drop 5).take 2).all isDigit &&
     decide (date.get? 7 = some '-') && ((date.drop 8).take 2).all isDigit then
    let after := l.drop 10
    let ws := after.takeWhile isSpace
    if ws = [] then none
    else
      let t := after.drop ws.length
      let tm := t.take 12
      if decide (tm.length = 12) && (tm.take 2).all isDigit &&
         decide (tm.get? 2 = some ':') && ((tm.drop 3).take 2).all isDigit &&
         decide (tm.get? 5 = some ':') && ((tm.drop 6).take 2).all isDigit &&
         decide (tm.get? 8 = some ',') && ((tm.drop 9).take 3).all isDigit then
        some (date ++ ws ++ tm, t.drop 12)
      else none
  else none

/-- Tail of `_RE_SCHED_NEXT` after the `NEXT` token:
`\s*\|\s*title="(?P<title>[^"]*)"\s*\|\s*playlist="(?P<playlist>[^"]*)` —
fully deterministic (greedy `\s*` runs, `[^"]*` up to the next quote; the
playlist group has no closing quote requirement). -/
def afterNextParse (l : List Char) : Option (List Char × List Char) :=
  match l.dropWhile isSpace with
  | '|' :: r1 =>
    let s2 := r1.dropWhile isSpace
    if startsWithLit s2 "title=\"".data then
      let s3 := s2.drop 7
      let title := s3.takeWhile (fun c => c ≠ '"')
      match s3.drop title.length with
      | '"' :: r4 =>
        match r4.dropWhile isSpace with
        | '|' :: r5 =>
          let s6 := r5.dropWhile isSpace
          if startsWithLit s6 "playlist=\"".data then
            some (title, (s6.drop 10).takeWhile (fun c => c ≠ '"'))
          else none
        | _ => none
      | _ => none
    else none
  | _ => none

/-- Lazy `.*?\bNEXT` scan of `_RE_SCHED_NEXT`: try the earliest `NEXT` token
(at a word boundary) whose continuation parses; on failure of the
continuation, backtrack by advancing one character, as the regex engine does. -/
def scanNextGo (prev : Char) : List Char → Option (List Char × List Char)
  | [] => none
  | c :: rest =>
    match (if !isWordChar prev && startsWithLit (c :: rest) "NEXT".data then
             afterNextParse ((c :: rest).drop 4)
           else none) with
    | some r => some r
    | none => scanNextGo c rest

/-- Lazy `.*?\bazurmixd\.scheduler\b` scan of `_RE_SCHED_NEXT`: earliest
occurrence of the component marker (with word boundaries on both sides) whose
continuation succeeds; one-character backtracking otherwise.  The `prev`
argument passed on to `scanNextGo` is the final `r` of `scheduler`. -/
def scanAzurGo (prev : Char) : List Char → Option (List Char × List Char)
  | [] => none
  | c :: rest =>
    match (if !isWordChar prev && startsWithLit (c :: rest) "azurmixd.scheduler".data &&
              wordBoundaryAfter ((c :: rest).drop 18) then
             scanNextGo 'r' ((c :: rest).drop 18)
           else none) with
    | some r => some r
    | none => scanAzurGo c rest

/-- Leftmost-match search for `_RE_SCHED_NEXT` (docker_client.py 56-58): at
each start position try the timestamp shape, then `\s+` (at least one
whitespace character after the timestamp), then the lazy component/NEXT scans.
Returns the `ts`, `title` and `playlist` groups. -/
def schedSearchGo : List Char → Option (List Char × List Char × List Char)
  | [] => none
  | c :: rest =>
    match (match matchTsAt (c :: rest) with
           | some (ts, after) =>
             match after with
             | a :: after2 =>
               if isSpace a then
                 match scanAzurGo a after2 with
                 | some (t, p) => some (ts, t, p)
                 | none => none
               else none
             | [] => none
           | none => none) with
    | some r => some r
    | none => schedSearchGo rest

/-- One scheduler NEXT entry as exposed by `extract_scheduler_next_entries`
(the dict of docker_client.py 388): raw timestamp string, raw title,
normalized title, display title, playlist label. -/
structure SchedEntryView where
  ts : String
  title : String
  title_norm : String
  title_display : String
  playlist : String
deriving DecidableEq

/-- `_RE_SCHED_NEXT.search` on one (prefix-stripped) line, building the entry
view exactly as docker_client.py 376-380 and 388 do. -/
def searchSchedNext (line : List Char) : Option SchedEntryView :=
  match schedSearchGo line with
  | some (ts, title, playlist) =>
    some ⟨⟨ts⟩, ⟨title⟩, normalize_title ⟨title⟩, display_title ⟨title⟩, ⟨playlist⟩⟩
  | none => none

/-- Length of the docker-timestamp prefix
`^\s*\d{4}-\d{2}-\d{2}T\d{2}:\d{2}:\d{2}\.\d+Z\s+` when it matches
(`_RE_DOCKER_TS_PREFIX`, docker_client.py 53). -/
def dockerTsPrefixLen (l : List Char) : Option Nat :=
  let ws := l.takeWhile isSpace
  let r0 := l.drop ws.length
  let date := r0.take 10
  if decide (date.length = 10) && (date.take 4).all isDigit &&
     decide (date.get? 4 = some '-') && ((date.drop 5).take 2).all isDigit &&
     decide (date.get? 7 = some '-') && ((date.drop 8).take 2).all isDigit &&
     decide (r0.get? 10 = some 'T') then
    let t := r0.drop 11
    let tm := t.take 8
    if decide (tm.length = 8) && (tm.take 2).all isDigit &&
       decide (tm.get? 2 = some ':') && ((tm.drop 3).take 2).all isDigit &&
       decide (tm.get? 5 = some ':') && ((tm.drop 6).take 2).all isDigit &&
       decide (t.get? 8 = some '.') then
      let frac := (t.drop 9).takeWhile isDigit
      if frac = [] then none
      else
        match t.drop (9 + frac.length) with
        | 'Z' :: r =>
          let ws2 := r.takeWhile isSpace
          if ws2 = [] then none
          else some (ws.length + 21 + frac.length + ws2.length)
        | _ => none
    else none
  else none

/-- Embedding of `DockerClient._strip_docker_prefix` (docker_client.py
361-363): remove one leading docker timestamp prefix if present, then strip. -/
def strip_docker_ts (line : List Char) : List Char :=
  match dockerTsPrefixLen line with
  | some k => pyStrip (line.drop k)
  | none => pyStrip line

/-- Result of `extract_scheduler_next_entries`, a structure view of the
Python dict (same conventions as `ExtractTitlesResult`). -/
structure ExtractNextResult where
  ok : Bool
  source : String
  error : Option String
  entries : List SchedEntryView
  count : Nat
deriving DecidableEq

/-- Embedding of `DockerClient.extract_scheduler_next_entries`
(docker_client.py 365-391) as a function of the fetched scheduler log text. -/
def extract_scheduler_next_entries (txt : String) : ExtractNextResult :=
  if txt.data = [] then ⟨false, "scheduler_logs", some "empty logs", [], 0⟩
  else if startsWithLit txt.data "[control]".data then
    ⟨false, "scheduler_logs", some (pyStripS txt), [], 0⟩
  else
    let entries := (pySplitlines txt.data).filterMap
      (fun raw => searchSchedNext (strip_docker_ts raw))
    ⟨true, "scheduler_logs", none, entries, entries.length⟩

/-- Result of `infer_playlist_for_title_from_scheduler`, a structure view of
the Python dict (`match` is named `matched`; fields absent in a branch are
`none`). -/
structure InferPlaylistResult where
  ok : Bool
  error : Option String
  playlist : Option String
  matched : Option SchedEntryView
  current_title : Option String
  current_norm : Option String
deriving DecidableEq

/-- Embedding of `DockerClient.infer_playlist_for_title_from_scheduler`
(docker_client.py 393-412): normalize the current title; empty normalized
title or no entries is a normal null result; otherwise the last entry (in a
backward scan) whose normalized title equals the normalized current title
supplies the playlist. -/
def infer_playlist_for_title_from_scheduler (txt : String)
    (current_title : Option String) : InferPlaylistResult :=
  let cur_norm := normalize_title (current_title.getD "")
  let data := extract_scheduler_next_entries txt
  if !data.ok then ⟨false, data.error, none, none, none, none⟩
  else
    let entries := data.entries
    if cur_norm = "" ∨ entries = [] then
      ⟨true, none, none, none, current_title, some cur_norm⟩
    else
      match entries.reverse.find? (fun e => e.title_norm == cur_norm) with
      | none => ⟨true, none, none, none, current_title, some cur_norm⟩
      | some e => ⟨true, none, some e.playlist, some e, current_title, some cur_norm⟩

/-- One element of the scheduler upcoming list (the dict built at
docker_client.py 440). -/
structure UpOutEntry where
  title : String
  title_display : String
  playlist : String
  ts : String
deriving DecidableEq

/-- The projection of docker_client.py 440: `title_display` falls back to
`display_title(title)` when empty (the Python `or`). -/
def mkUpOut (e : SchedEntryView) : UpOutEntry :=
  ⟨e.title, (if e.title_display ≠ "" then e.title_display else display_title e.title),
    e.playlist, e.ts⟩

/-- The dedup-and-truncate loop of `compute_upcoming_from_scheduler_next`
(docker_client.py 433-442): skip empty or already-seen trimmed normalized
titles; stop as soon as the output reaches `n` elements (checked after each
append, so a non-positive `n` still lets one element through). -/
def schedLoop (n : Int) (seen : List String) (outLen : Nat) :
    List SchedEntryView → List UpOutEntry
  | [] => []
  | e :: rest =>
    let tn := pyStripS e.title_norm
    if tn = "" ∨ tn ∈ seen then schedLoop n seen outLen rest
    else
      let o := mkUpOut e
      if (outLen + 1 : Int) ≥ n then [o]
      else o :: schedLoop n (tn :: seen) (outLen + 1) rest

/-- Result of `compute_upcoming_from_scheduler_next`, a structure view of the
Python dicts (same conventions as `UpcomingResult`). -/
structure SchedUpcomingResult where
  ok : Bool
  source : String
  error : Option String
  current_title_found : Option Bool
  current_title : Option String
  upcoming : List UpOutEntry
deriving DecidableEq

/-- Embedding of `DockerClient.compute_upcoming_from_scheduler_next`
(docker_client.py 414-450) as a function of the fetched scheduler log text:
backward scan for the last entry whose normalized title equals the normalized
current title; the window is the entries after it, or the last `n * 8`
entries as fallback; then the dedup-and-truncate loop. -/
def compute_upcoming_from_scheduler_next (txt : String) (current_title : Option String)
    (n : Int) : SchedUpcomingResult :=
  let cur_norm := normalize_title (current_title.getD "")
  let data := extract_scheduler_next_entries txt
  if !data.ok then ⟨false, "scheduler_logs", data.error, none, none, []⟩
  else
    let raw_entries := data.entries
    if raw_entries = [] then
      ⟨false, "scheduler_logs", some "no scheduler NEXT entries found", none, none, []⟩
    else
      let startIdx : Option Nat :=
        if cur_norm ≠ "" then
          (lastIdxP (fun e => e.title_norm == cur_norm) raw_entries).map (· + 1)
        else none
      let seq := match startIdx with
                 | some s => raw_entries.drop s
                 | none => pySliceFrom raw_entries (-(n * 8))
      ⟨true,
        (if startIdx.isSome then "scheduler_logs_after_current"
         else "scheduler_logs_fallback_tail"),
        none, some startIdx.isSome, current_title, schedLoop n [] 0 seq⟩

/-- Numeric value of an ASCII digit. -/
def digitVal (c : Char) : Nat := c.toNat - 48

/-- Existence scan for `\bsrc=playbin\b` (caseless) with word boundaries on
both sides, starting anywhere in the input; `prev` is the character before
the current position. -/
def srcPlaybinAfter (prev : Char) : List Char → Bool
  | [] => false
  | c :: rest =>
    (!isWordChar prev && caselessStartsWith (c :: rest) "src=playbin".data &&
      wordBoundaryAfter ((c :: rest).drop 11)) ||
    srcPlaybinAfter c rest

/-- Existence test for `_RE_STREAM_START` =
`\bBUS\s+STREAM_START\b.*\bsrc=playbin\b` (IGNORECASE, docker_client.py 61):
a word-boundary `BUS`, at least one whitespace, `STREAM_START` with a word
boundary after it, and `src=playbin` (with word boundaries) anywhere later.
The source only uses the truthiness of `search`, so a `Bool` suffices. -/
def busStreamStartGo (prev : Char) : List Char → Bool
  | [] => false
  | c :: rest =>
    (if !isWordChar prev && caselessStartsWith (c :: rest) "bus".data then
       let afterBus := (c :: rest).drop 3
       let ws := afterBus.takeWhile isSpace
       if ws = [] then false
       else
         let t := afterBus.drop ws.length
         caselessStartsWith t "stream_start".data && wordBoundaryAfter (t.drop 12) &&
           srcPlaybinAfter 't' (t.drop 12)
     else false) ||
    busStreamStartGo c rest

/-- `_RE_STREAM_START.search(line)` as a Bool. -/
def isStreamStartLine (line : List Char) : Bool :=
  busStreamStartGo ' ' line

/-- strptime `%m` field: the CPython `_strptime` regex `(1[0-2]|0[1-9]|[1-9])`,
alternation tried in order. -/
def readMonth : List Char → Option (Nat × List Char)
  | c1 :: c2 :: r =>
    if c1 = '1' && ('0' ≤ c2 && c2 ≤ '2') then some (10 + digitVal c2, r)
    else if c1 = '0' && ('1' ≤ c2 && c2 ≤ '9') then some (digitVal c2, r)
    else if '1' ≤ c1 && c1 ≤ '9' then some (digitVal c1, c2 :: r)
    else none
  | [c1] => if '1' ≤ c1 && c1 ≤ '9' then some (digitVal c1, []) else none
  | [] => none

/-- strptime `%d` field: `(3[01]|[12]\d|0[1-9]|[1-9])`. -/
def readDay : List Char → Option (Nat × List Char)
  | c1 :: c2 :: r =>
    if c1 = '3' && (c2 = '0' || c2 = '1') then some (30 + digitVal c2, r)
    else if (c1 = '1' || c1 = '2') && isDigit c2 then
      some (digitVal c1 * 10 + digitVal c2, r)
    else if c1 = '0' && ('1' ≤ c2 && c2 ≤ '9') then some (digitVal c2, r)
    else if '1' ≤ c1 && c1 ≤ '9' then some (digitVal c1, c2 :: r)
    else none
  | [c1] => if '1' ≤ c1 && c1 ≤ '9' then some (digitVal c1, []) else none
  | [] => none

/-- strptime `%H` field: `(2[0-3]|[0-1]\d|\d)`. -/
def readHour : List Char → Option (Nat × List Char)
  | c1 :: c2 :: r =>
    if c1 = '2' && ('0' ≤ c2 && c2 ≤ '3') then some (20 + digitVal c2, r)
    else if (c1 = '0' || c1 = '1') && isDigit c2 then
      some (digitVal c1 * 10 + digitVal c2, r)
    else if isDigit c1 then some (digitVal c1, c2 :: r)
    else none
  | [c1] => if isDigit c1 then some (digitVal c1, []) else none
  | [] => none

/-- strptime `%M` field: `([0-5]\d|\d)`. -/
def readMinute : List Char → Option (Nat × List Char)
  | c1 :: c2 :: r =>
    if ('0' ≤ c1 && c1 ≤ '5') && isDigit c2 then
      some (digitVal c1 * 10 + digitVal c2, r)
    else if isDigit c1 then some (digitVal c1, c2 :: r)
    else none
  | [c1] => if isDigit c1 then some (digitVal c1, []) else none
  | [] => none

/-- strptime `%S` field: `(6[0-1]|[0-5]\d|\d)` (leap seconds are accepted by
the regex, and then rejected by the `datetime` constructor). -/
def readSecond : List Char → Option (Nat × List Char)
  | c1 :: c2 :: r =>
    if c1 = '6' && (c2 = '0' || c2 = '1') then some (60 + digitVal c2, r)
    else if ('0' ≤ c1 && c1 ≤ '5') && isDigit c2 then
      some (digitVal c1 * 10 + digitVal c2, r)
    else if isDigit c1 then some (digitVal c1, c2 :: r)
    else none
  | [c1] => if isDigit c1 then some (digitVal c1, []) else none
  | [] => none

/-- Gregorian leap year. -/
def isLeap (y : Nat) : Bool := (y % 4 = 0 && y % 100 ≠ 0) || y % 400 = 0

/-- Days in a month of the proleptic Gregorian calendar (as validated by the
Python `datetime` constructor). -/
def daysInMonth (y m : Nat) : Nat :=
  if m = 2 then (if isLeap y then 29 else 28)
  else if m = 4 || m = 6 || m = 9 || m = 11 then 30 else 31

/-- Days from 1970-01-01 of a proleptic Gregorian date (civil-from-days
inverse, standard algorithm); all intermediate divisions act on non-negative
values for `y ≥ 1`. -/
def daysFromCivil (y m d : Nat) : Int :=
  let yy : Int := if m ≤ 2 then (y : Int) - 1 else (y : Int)
  let era : Int := yy / 400
  let yoe : Int := yy - era * 400
  let mp : Int := if 2 < m then (m : Int) - 3 else (m : Int) + 9
  let doy : Int := (153 * mp + 2) / 5 + (d : Int) - 1
  let doe : Int := yoe * 365 + yoe / 4 - yoe / 100 + doy
  era * 146097 + doe - 719468

/-- A naive `datetime` value measured in microseconds from 1970-01-01
00:00:00 (differences of Python `datetime`s equal differences of this). -/
def epochUs (y mo dy hh mi ss us : Nat) : Int :=
  (daysFromCivil y mo dy * 86400 + ((hh * 3600 + mi * 60 + ss : Nat) : Int)) * 1000000
    + (us : Int)

/-- Embedding of `DockerClient._parse_sched_ts` (docker_client.py 251-256):
`datetime.strptime(ts, "%Y-%m-%d %H:%M:%S,%f")` with `None` on failure.
The format whitespace matches a whitespace run; the whole string must be
consumed; the `datetime` constructor additionally validates the day against
the month length and rejects seconds above 59 and year 0. -/
def parse_sched_ts (s : String) : Option Int :=
  let l := s.data
  let y4 := l.take 4
  if y4.length ≠ 4 || !y4.all isDigit then none
  else
    let year := y4.foldl (fun a c => a * 10 + digitVal c) 0
    match l.drop 4 with
    | '-' :: r1 =>
      match readMonth r1 with
      | some (mo, r2) =>
        match r2 with
        | '-' :: r3 =>
          match readDay r3 with
          | some (dy, r4) =>
            let ws := r4.takeWhile isSpace
            if ws = [] then none
            else
              match readHour (r4.drop ws.length) with
              | some (hh, r5) =>
                match r5 with
                | ':' :: r6 =>
                  match readMinute r6 with
                  | some (mi, r7) =>
                    match r7 with
                    | ':' :: r8 =>
                      match readSecond r8 with
                      | some (ss, r9) =>
                        match r9 with
                        | ',' :: r10 =>
                          let ds := (r10.takeWhile isDigit).take 6
                          if ds = [] || r10.drop ds.length ≠ [] then none
                          else
                            let usec := ds.foldl (fun a c => a * 10 + digitVal c) 0 *
                              10 ^ (6 - ds.length)
                            if year < 1 || daysInMonth year mo < dy || 59 < ss then none
                            else some (epochUs year mo dy hh mi ss usec)
                        | _ => none
                      | none => none
                    | _ => none
                  | none => none
                | _ => none
              | none => none
          | none => none
        | _ => none
      | none => none
    | _ => none

/-- The anchored timestamp match of docker_client.py 467:
`re.match(r"^(?P<ts>\d{4}-\d{2}-\d{2}\s+\d{2}:\d{2}:\d{2},\d{3})\s+", line)`,
returning the `ts` group. -/
def leadingSchedTs (l : List Char) : Option (List Char) :=
  match matchTsAt l with
  | some (ts, rest) =>
    match rest.head? with
    | some c => if isSpace c then some ts else none
    | none => none
  | none => none

/-- Truncation toward zero of a microsecond quantity to whole seconds: the
model of `int((now - ts).total_seconds())`. -/
def truncSecOfUs (d : Int) : Int :=
  if 0 ≤ d then d / 1000000 else -((-d) / 1000000)

/-- The forward scan of docker_client.py 462-469 over the log lines, carrying
`(last_line, last_ts)`.  Note the faithful quirk: `last_ts` is overwritten
only when the timestamp regex matches on the new matching line; otherwise it
keeps the value from an earlier matching line. -/
def streamStartScan (st : Option (List Char) × Option Int) :
    List (List Char) → Option (List Char) × Option Int
  | [] => st
  | raw :: rest =>
    let line := strip_docker_ts raw
    if isStreamStartLine line then
      let ll := pyStrip line
      let ts := match leadingSchedTs ll with
                | some tsStr => parse_sched_ts ⟨tsStr⟩
                | none => st.2
      streamStartScan (some ll, ts) rest
    else streamStartScan st rest

/-- Result of `last_engine_stream_start`, a structure view of the Python
dicts.  `ts` is modelled as epoch microseconds (the code returns an isoformat
string of the same instant); fields absent from a branch dict are `none`
(`recent_window_s` is 0 in branches that omit it). -/
structure StreamStartResult where
  ok : Bool
  source : String
  error : Option String
  line : Option String
  ts : Option Int
  age_s : Option Int
  recent : Bool
  recent_window_s : Int
deriving DecidableEq

/-- Embedding of `DockerClient.last_engine_stream_start` (docker_client.py
454-493) as a function of the fetched engine log text and of the current
naive local time `now_us` (the `dt.datetime.now()` of line 478) in epoch
microseconds: keep the last matching line (and the quirky `last_ts`), then
`recent` iff `0 <= int((now - ts).total_seconds()) <= recent_window_s`. -/
def last_engine_stream_start (txt : String) (now_us : Int)
    (recent_window_s : Int) : StreamStartResult :=
  if txt.data = [] then
    ⟨false, "engine_logs", some "empty logs", none, none, none, false, 0⟩
  else if startsWithLit txt.data "[control]".data then
    ⟨false, "engine_logs", some (pyStripS txt), none, none, none, false, 0⟩
  else
    match streamStartScan (none, none) (pySplitlines txt.data) with
    | (none, _) => ⟨true, "engine_logs", none, none, none, none, false, 0⟩
    | (some ll, some t) =>
      let age := truncSecOfUs (now_us - t)
      ⟨true, "engine_logs", none, some ⟨ll⟩, some t, some age,
        decide (0 ≤ age) && decide (age ≤ recent_window_s), recent_window_s⟩
    | (some ll, none) =>
      ⟨true, "engine_logs", none, some ⟨ll⟩, none, none, false, recent_window_s⟩

/-- Engine log text for the spec's Scenario A: five `preprocess:` lines whose
extracted titles are `["A","B","C","A","D"]`. -/
def preprocessLogA : String :=
  "preprocess: A\npreprocess: B\npreprocess: C\npreprocess: A\npreprocess: D"

/-- Scheduler log text for the spec's Scenario B: NEXT entries for titles
`x`,`y`,`z` with playlists `morning`,`morning`,`evening`. -/
def schedLogB : String :=
  "2024-01-01 10:00:00,000 INFO azurmixd.scheduler NEXT | title=\"x\" | playlist=\"morning\"\n2024-01-01 10:05:00,000 INFO azurmixd.scheduler NEXT | title=\"y\" | playlist=\"morning\"\n2024-01-01 10:10:00,000 INFO azurmixd.scheduler NEXT | title=\"z\" | playlist=\"evening\""

/-- Engine log with two stream-start lines: the first carries a parseable
timestamp, the second (the most recent match) carries none. -/
def streamLogStale : String :=
  "2030-01-01 00:00:00,000 BUS STREAM_START src=playbin\nBUS STREAM_START src=playbin"

/-- A `datetime.now()` instant five seconds after the first line of
`streamLogStale`. -/
def nowStale : Int := (parse_sched_ts "2030-01-01 00:00:05,000").getD 0

/-- No two adjacent whitespace characters (the shape of whitespace after
`collapseWs`). -/
def noTwoSpaces : List Char → Bool
  | a :: b :: r => !(isSpace a && isSpace b) && noTwoSpaces (b :: r)
  | _ => true

/-- The head, when present, is not whitespace. -/
def headNotSpace (l : List Char) : Bool :=
  match l.head? with
  | some c => !isSpace c
  | none => true

/-- Whether the head exists and is whitespace. -/
def headIsSpace (l : List Char) : Bool :=
  match l.head? with
  | some c => isSpace c
  | none => false

/-- The last character, when present, is not whitespace. -/
def lastNotSpace (l : List Char) : Bool :=
  match l.getLast? with
  | some c => !isSpace c
  | none => true

/-- Canonical shape of a `normalize_title` output: every whitespace character
is a plain space, no two adjacent spaces, no uppercase letters, no `/`, no
`_`, and no whitespace at either end. -/
def NormCanon (y : List Char) : Prop :=
  (∀ c ∈ y, isSpace c = true → c = ' ') ∧
  noTwoSpaces y = true ∧
  (∀ c ∈ y, isUpperA c = false) ∧
  '/' ∉ y ∧ '_' ∉ y ∧
  headNotSpace y = true ∧ lastNotSpace y = true


theorem mem_dedupeKeepOrderAux {x : String} :
    ∀ (l seen : List String), x ∈ dedupeKeepOrderAux seen l ↔ x ∈ l ∧ x ∉ seen := by
  intro l
  induction l with
  | nil => intro seen; simp [dedupeKeepOrderAux]
  | cons y ys ih =>
    intro seen
    by_cases hy : y ∈ seen
    · simp only [dedupeKeepOrderAux, if_pos hy, ih seen, List.mem_cons]
      constructor
      · rintro ⟨h1, h2⟩; exact ⟨Or.inr h1, h2⟩
      · rintro ⟨h1 | h1, h2⟩
        · exact absurd (h1 ▸ hy) h2
        · exact ⟨h1, h2⟩
    · simp only [dedupeKeepOrderAux, if_neg hy, List.mem_cons, ih (y :: seen)]
      constructor
      · rintro (h | ⟨h1, h2⟩)
        · subst h; exact ⟨Or.inl rfl, hy⟩
        · exact ⟨Or.inr h1, fun hc => h2 (Or.inr hc)⟩
      · rintro ⟨h1 | h1, h2⟩
        · exact Or.inl h1
        · by_cases hx : x = y
          · exact Or.inl hx
          · refine Or.inr ⟨h1, fun hc => ?_⟩
            rcases hc with h | h
            · exact hx h
            · exact h2 h

theorem sublist_dedupeKeepOrderAux :
    ∀ (l seen : List String), (dedupeKeepOrderAux seen l).Sublist l := by
  intro l
  induction l with
  | nil => intro seen; simp [dedupeKeepOrderAux]
  | cons y ys ih =>
    intro seen
    by_cases hy : y ∈ seen
    · simpa [dedupeKeepOrderAux, if_pos hy] using (ih seen).cons y
    · simpa [dedupeKeepOrderAux, if_neg hy] using (ih (y :: seen)).cons₂ y

theorem nodup_dedupeKeepOrderAux :
    ∀ (l seen : List String), (dedupeKeepOrderAux seen l).Nodup := by
  intro l
  induction l with
  | nil => intro seen; simp [dedupeKeepOrderAux]
  | cons y ys ih =>
    intro seen
    by_cases hy : y ∈ seen
    · simpa [dedupeKeepOrderAux, if_pos hy] using ih seen
    · simp only [dedupeKeepOrderAux, if_neg hy, List.nodup_cons]
      refine ⟨fun hc => ?_, ih (y :: seen)⟩
      exact ((mem_dedupeKeepOrderAux ys (y :: seen)).mp hc).2 (List.mem_cons_self y seen)

theorem pairwise_indexOf_dedupeKeepOrderAux :
    ∀ (l seen : List String),
      (dedupeKeepOrderAux seen l).Pairwise (fun a b => l.indexOf a < l.indexOf b) := by
  intro l
  induction l with
  | nil => intro seen; simp [dedupeKeepOrderAux]
  | cons y ys ih =>
    intro seen
    by_cases hy : y ∈ seen
    · simp only [dedupeKeepOrderAux, if_pos hy]
      refine (ih seen).imp_of_mem ?_
      intro a b ha hb hab
      have ha2 := (mem_dedupeKeepOrderAux ys seen).mp ha
      have hb2 := (mem_dedupeKeepOrderAux ys seen).mp hb
      have hay : a ≠ y := fun h => ha2.2 (h ▸ hy)
      have hby : b ≠ y := fun h => hb2.2 (h ▸ hy)
      rw [List.indexOf_cons_ne _ (Ne.symm hay), List.indexOf_cons_ne _ (Ne.symm hby)]
      omega
    · simp only [dedupeKeepOrderAux, if_neg hy]
      refine List.Pairwise.cons ?_ ((ih (y :: seen)).imp_of_mem ?_)
      · intro b hb
        have hb2 := (mem_dedupeKeepOrderAux ys (y :: seen)).mp hb
        have hby : b ≠ y := fun h => hb2.2 (h ▸ List.mem_cons_self y seen)
        rw [List.indexOf_cons_self, List.indexOf_cons_ne _ (Ne.symm hby)]
        omega
      · intro a b ha hb hab
        have ha2 := (mem_dedupeKeepOrderAux ys (y :: seen)).mp ha
        have hb2 := (mem_dedupeKeepOrderAux ys (y :: seen)).mp hb
        have hay : a ≠ y := fun h => ha2.2 (h ▸ List.mem_cons_self y seen)
        have hby : b ≠ y := fun h => hb2.2 (h ▸ List.mem_cons_self y seen)
        rw [List.indexOf_cons_ne _ (Ne.symm hay), List.indexOf_cons_ne _ (Ne.symm hby)]
        omega

theorem schedLoop_len_le_one_of_nonpos (n : Int) (hn : n ≤ 0) :
    ∀ (seq : List SchedEntryView) (seen : List String) (outLen : Nat),
      (schedLoop n seen outLen seq).length ≤ 1 := by
  intro seq
  induction seq with
  | nil => intro seen outLen; simp [schedLoop]
  | cons e rest ih =>
    intro seen outLen
    by_cases h : pyStripS e.title_norm = "" ∨ pyStripS e.title_norm ∈ seen
    · simpa [schedLoop, if_pos h] using ih seen outLen
    · have hb : ((outLen : Int) + 1 ≥ n) := by omega
      simp [schedLoop, if_neg h, if_pos hb]

theorem schedLoop_kept :
    ∀ (seq : List SchedEntryView) (n : Int) (seen : List String) (outLen : Nat),
      ∃ ks : List SchedEntryView,
        ks.Sublist seq ∧
        (∀ e ∈ ks, pyStripS e.title_norm ≠ "" ∧ pyStripS e.title_norm ∉ seen) ∧
        (ks.map (fun e => pyStripS e.title_norm)).Nodup ∧
        (∀ l1 e l2, ks = l1 ++ e :: l2 →
          ∃ s1 s2, seq = s1 ++ e :: s2 ∧
            (∀ e2 ∈ s1, pyStripS e2.title_norm ≠ pyStripS e.title_norm) ∧
            l1.Sublist s1 ∧ l2.Sublist s2) ∧
        schedLoop n seen outLen seq = ks.map mkUpOut := by
  intro seq
  induction seq with
  | nil =>
    intro n seen outLen
    refine ⟨[], List.Sublist.refl [], by simp, by simp, ?_, by simp [schedLoop]⟩
    intro l1 e l2 h
    exact absurd h (by simp)
  | cons e0 rest ih =>
    intro n seen outLen
    by_cases h : pyStripS e0.title_norm = "" ∨ pyStripS e0.title_norm ∈ seen
    · obtain ⟨ks, h1, h2, h3, h5, h4⟩ := ih n seen outLen
      refine ⟨ks, h1.cons e0, h2, h3, ?_, by simpa [schedLoop, if_pos h] using h4⟩
      intro l1 e l2 hks
      obtain ⟨s1, s2, hs, hnk, hl1, hl2⟩ := h5 l1 e l2 hks
      refine ⟨e0 :: s1, s2, by rw [hs]; rfl, ?_, hl1.cons e0, hl2⟩
      intro e2 he2
      rcases List.mem_cons.mp he2 with rfl | he2
      · have hme : e ∈ ks := by
          rw [hks]; exact List.mem_append_right _ (List.mem_cons_self _ _)
        rcases h with h | h
        · rw [h]
          exact fun hc => (h2 e hme).1 hc.symm
        · exact fun hc => (h2 e hme).2 (hc ▸ h)
      · exact hnk e2 he2
    · push_neg at h
      by_cases hb : ((outLen : Int) + 1 ≥ n)
      · refine ⟨[e0], (List.nil_sublist rest).cons₂ e0, ?_, by simp, ?_, ?_⟩
        · intro x hx
          rcases List.mem_singleton.mp hx with rfl
          exact h
        · intro l1 e l2 hks
          rcases l1 with _ | ⟨x, l1b⟩
          · rcases List.cons.injEq e0 [] e l2 ▸ hks with ⟨rfl, rfl⟩
            exact ⟨[], rest, rfl, by simp, List.Sublist.refl [], List.nil_sublist rest⟩
          · simp at hks
        · simp [schedLoop, if_neg (not_or.mpr h), if_pos hb]
      · obtain ⟨ks, h1, h2, h3, h5, h4⟩ := ih n (pyStripS e0.title_norm :: seen) (outLen + 1)
        refine ⟨e0 :: ks, h1.cons₂ e0, ?_, ?_, ?_, ?_⟩
        · intro x hx
          rcases List.mem_cons.mp hx with rfl | hx
          · exact h
          · have := h2 x hx
            exact ⟨this.1, fun hc => this.2 (List.mem_cons_of_mem _ hc)⟩
        · refine List.Nodup.cons (fun hc => ?_) h3
          rcases List.mem_map.mp hc with ⟨x, hx, hxe⟩
          exact (h2 x hx).2 (hxe ▸ List.mem_cons_self _ _)
        · intro l1 e l2 hks
          rcases l1 with _ | ⟨x, l1b⟩
          · have he : e0 = e ∧ ks = l2 := by
              constructor
              · exact (List.cons.inj (by simpa using hks)).1
              · exact (List.cons.inj (by simpa using hks)).2
            obtain ⟨rfl, rfl⟩ := he
            exact ⟨[], rest, rfl, by simp, List.Sublist.refl [], h1⟩
          · have hx0 : x = e0 ∧ ks = l1b ++ e :: l2 := by
              have := (List.cons.inj (by simpa using hks))
              exact ⟨this.1.symm, this.2⟩
            obtain ⟨rfl, hks2⟩ := hx0
            obtain ⟨s1, s2, hs, hnk, hl1, hl2⟩ := h5 l1b e l2 hks2
            refine ⟨x :: s1, s2, by rw [hs]; rfl, ?_, hl1.cons₂ x, hl2⟩
            intro e2 he2
            rcases List.mem_cons.mp he2 with rfl | he2
            · have hme : e ∈ ks := by
                rw [hks2]; exact List.mem_append_right _ (List.mem_cons_self _ _)
              exact fun hc => (h2 e hme).2 (hc ▸ List.mem_cons_self _ _)
            · exact hnk e2 he2
        · simpa [schedLoop, if_neg (not_or.mpr h), if_neg hb] using h4

theorem lastIdxP_eq_none {α : Type} (p : α → Bool) :
    ∀ l : List α, lastIdxP p l = none ↔ ∀ x ∈ l, p x = false := by
  intro l
  induction l with
  | nil => simp [lastIdxP]
  | cons y ys ih =>
    constructor
    · intro h x hx
      rcases List.mem_cons.mp hx with rfl | hx
      · simp only [lastIdxP] at h
        rcases hy : lastIdxP p ys with _ | j
        · rw [hy] at h
          by_cases hp : p x
          · simp [hp] at h
          · simpa using hp
        · rw [hy] at h; simp at h
      · simp only [lastIdxP] at h
        rcases hy : lastIdxP p ys with _ | j
        · exact (ih.mp hy) x hx
        · rw [hy] at h; simp at h
    · intro h
      simp only [lastIdxP]
      rw [ih.mpr (fun x hx => h x (List.mem_cons_of_mem _ hx))]
      simp [h y (List.mem_cons_self _ _)]

theorem upcoming_preprocess_zero (txt : String) (cur : Option String) :
    (compute_upcoming_from_preprocess txt cur 0).upcoming = [] := by
  unfold compute_upcoming_from_preprocess
  dsimp only
  split
  · rfl
  · split
    · rfl
    · split <;> simp [pySliceTo]

theorem upcoming_sched_zero (txt : String) (cur : Option String) :
    (compute_upcoming_from_scheduler_next txt cur 0).upcoming.length ≤ 1 := by
  unfold compute_upcoming_from_scheduler_next
  dsimp only
  split
  · simp
  · split
    · simp
    · exact schedLoop_len_le_one_of_nonpos 0 le_rfl _ _ _

theorem pySliceFrom_neg {α : Type} (l : List α) (k : Int) (hk : 1 ≤ k) :
    pySliceFrom l (-k) = l.drop (l.length - k.toNat) := by
  rw [pySliceFrom, if_neg (by omega)]
  congr 1
  omega

theorem pySliceTo_nonneg {α : Type} (l : List α) (k : Int) (hk : 0 ≤ k) :
    pySliceTo l k = l.take k.toNat := by
  rw [pySliceTo, if_pos hk]

theorem preprocess_fallback_core (txt : String) (cur : Option String) (n : Int)
    (hok : (extract_preprocess_titles txt).ok = true)
    (hne : (extract_preprocess_titles txt).titles.filter (fun t => pyStripS t != "") ≠ [])
    (habs : pyStripS (cur.getD "") = "" ∨
      ∀ t ∈ (extract_preprocess_titles txt).titles.filter (fun t => pyStripS t != ""),
        pyStripS t ≠ pyStripS (cur.getD "")) :
    (compute_upcoming_from_preprocess txt cur n).ok = true ∧
    (compute_upcoming_from_preprocess txt cur n).source = "engine_logs_fallback_tail" ∧
    (compute_upcoming_from_preprocess txt cur n).current_title_found = some false ∧
    (1 ≤ n → (compute_upcoming_from_preprocess txt cur n).upcoming =
      (dedupe_keep_order
        (((extract_preprocess_titles txt).titles.filter (fun t => pyStripS t != "")).drop
          (((extract_preprocess_titles txt).titles.filter (fun t => pyStripS t != "")).length
            - (n * 4).toNat))).take n.toNat) := by
  have hsi : (if pyStripS (cur.getD "") ≠ "" then
      (lastIdxP (fun t => pyStripS t == pyStripS (cur.getD ""))
        ((extract_preprocess_titles txt).titles.filter (fun t => pyStripS t != ""))).map
        (· + 1)
    else none) = none := by
    rcases habs with h | h
    · rw [if_neg (by simpa using h)]
    · by_cases hc : pyStripS (cur.getD "") ≠ ""
      · rw [if_pos hc]
        rw [(lastIdxP_eq_none _ _).mpr (fun x hx => by simpa using h x hx)]
        rfl
      · rw [if_neg hc]
  unfold compute_upcoming_from_preprocess
  dsimp only
  rw [if_neg (by simp [hok]), if_neg hne, hsi]
  refine ⟨rfl, rfl, rfl, fun hn => ?_⟩
  dsimp only
  rw [pySliceFrom_neg _ _ (by omega), pySliceTo_nonneg _ _ (by omega)]

theorem sched_fallback_core (txt : String) (cur : Option String) (n : Int)
    (hok : (extract_scheduler_next_entries txt).ok = true)
    (hne : (extract_scheduler_next_entries txt).entries ≠ [])
    (habs : normalize_title (cur.getD "") = "" ∨
      ∀ e ∈ (extract_scheduler_next_entries txt).entries,
        e.title_norm ≠ normalize_title (cur.getD "")) :
    (compute_upcoming_from_scheduler_next txt cur n).ok = true ∧
    (compute_upcoming_from_scheduler_next txt cur n).source =
      "scheduler_logs_fallback_tail" ∧
    (compute_upcoming_from_scheduler_next txt cur n).current_title_found = some false ∧
    (1 ≤ n → (compute_upcoming_from_scheduler_next txt cur n).upcoming =
      schedLoop n [] 0 ((extract_scheduler_next_entries txt).entries.drop
        ((extract_scheduler_next_entries txt).entries.length - (n * 8).toNat))) := by
  have hsi : (if normalize_title (cur.getD "") ≠ "" then
      (lastIdxP (fun e => e.title_norm == normalize_title (cur.getD ""))
        (extract_scheduler_next_entries txt).entries).map (· + 1)
    else none) = none := by
    rcases habs with h | h
    · rw [if_neg (by simpa using h)]
    · by_cases hc : normalize_title (cur.getD "") ≠ ""
      · rw [if_pos hc]
        rw [(lastIdxP_eq_none _ _).mpr (fun x hx => by simpa using h x hx)]
        rfl
      · rw [if_neg hc]
  unfold compute_upcoming_from_scheduler_next
  dsimp only
  rw [if_neg (by simp [hok]), if_neg hne, hsi]
  refine ⟨rfl, rfl, rfl, fun hn => ?_⟩
  dsimp only
  rw [pySliceFrom_neg _ _ (by omega)]

theorem upPairs_facts :
    ∀ q ∈ upPairs, isSpace q.1 = false ∧ isSpace q.2 = false ∧
      isUpperA q.2 = false ∧ q.2 ≠ '/' ∧ q.2 ≠ '_' ∧ q.2 ≠ '\n' := by decide

theorem isUpperA_false_iff {c : Char} :
    isUpperA c = false ↔ upPairs.find? (fun q => decide (c = q.1)) = none := by
  rw [isUpperA, List.any_eq_false, List.find?_eq_none]

theorem lowerChar_of_not_upper {c : Char} (h : isUpperA c = false) : lowerChar c = c := by
  rw [lowerChar, isUpperA_false_iff.mp h]

theorem lowerChar_isSpace (c : Char) : isSpace (lowerChar c) = isSpace c := by
  rw [lowerChar]
  rcases hf : upPairs.find? (fun q => decide (c = q.1)) with _ | q
  · rw [hf]
  · rw [hf]
    have hmem := List.mem_of_find?_eq_some hf
    have hc : c = q.1 := by have := List.find?_some hf; simpa using this
    have hq := upPairs_facts q hmem
    rw [hq.2.1, hc, hq.1]

theorem lowerChar_of_isSpace {c : Char} (h : isSpace c = true) : lowerChar c = c := by
  rw [lowerChar]
  rcases hf : upPairs.find? (fun q => decide (c = q.1)) with _ | q
  · rw [hf]
  · rw [hf]
    have hmem := List.mem_of_find?_eq_some hf
    have hc : c = q.1 := by have := List.find?_some hf; simpa using this
    rw [hc, (upPairs_facts q hmem).1] at h
    exact absurd h (by simp)

theorem lowerChar_isUpperA (c : Char) : isUpperA (lowerChar c) = false := by
  rw [lowerChar]
  rcases hf : upPairs.find? (fun q => decide (c = q.1)) with _ | q
  · rw [hf]
    exact isUpperA_false_iff.mpr hf
  · rw [hf]
    exact (upPairs_facts q (List.mem_of_find?_eq_some hf)).2.2.1

theorem lowerChar_eq_slash {c : Char} (h : lowerChar c = '/') : c = '/' := by
  rw [lowerChar] at h
  rcases hf : upPairs.find? (fun q => decide (c = q.1)) with _ | q
  · rwa [hf] at h
  · rw [hf] at h
    exact absurd h (upPairs_facts q (List.mem_of_find?_eq_some hf)).2.2.2.1

theorem lowerChar_eq_underscore {c : Char} (h : lowerChar c = '_') : c = '_' := by
  rw [lowerChar] at h
  rcases hf : upPairs.find? (fun q => decide (c = q.1)) with _ | q
  · rwa [hf] at h
  · rw [hf] at h
    exact absurd h (upPairs_facts q (List.mem_of_find?_eq_some hf)).2.2.2.2.1

theorem lowerChar_eq_newline {c : Char} (h : lowerChar c = '\n') : c = '\n' := by
  rw [lowerChar] at h
  rcases hf : upPairs.find? (fun q => decide (c = q.1)) with _ | q
  · rwa [hf] at h
  · rw [hf] at h
    exact absurd h (upPairs_facts q (List.mem_of_find?_eq_some hf)).2.2.2.2.2

theorem dropWhile_append_singleton {p : Char → Bool} {c : Char} (hc : p c = false) :
    ∀ xs : List Char, (xs ++ [c]).dropWhile p = xs.dropWhile p ++ [c] := by
  intro xs
  induction xs with
  | nil => simp [List.dropWhile_cons, hc]
  | cons x t ih => by_cases hx : p x <;> simp [List.dropWhile_cons, hx, ih]

theorem trimRight_cons_of_not_space {c : Char} {t : List Char} (hc : isSpace c = false) :
    trimRight (c :: t) = c :: trimRight t := by
  unfold trimRight
  rw [List.reverse_cons, dropWhile_append_singleton hc, List.reverse_append]
  simp

theorem trimLeft_cons_of_not_space {c : Char} {t : List Char} (hc : isSpace c = false) :
    trimLeft (c :: t) = c :: t := by
  simp [trimLeft, List.dropWhile_cons, hc]

theorem dropWhile_head_false {p : Char → Bool} :
    ∀ (l : List Char) {c : Char} {t : List Char}, l.dropWhile p = c :: t → p c = false := by
  intro l
  induction l with
  | nil => intro c t h; simp at h
  | cons x xs ih =>
    intro c t h
    by_cases hx : p x
    · rw [List.dropWhile_cons, if_pos hx] at h
      exact ih h
    · rw [List.dropWhile_cons, if_neg hx] at h
      cases h
      simpa using hx

theorem mem_trimLeft {c : Char} {l : List Char} (h : c ∈ trimLeft l) : c ∈ l :=
  (List.dropWhile_sublist _).mem h

theorem mem_trimRight {c : Char} {l : List Char} (h : c ∈ trimRight l) : c ∈ l := by
  unfold trimRight at h
  rw [List.mem_reverse] at h
  exact List.mem_reverse.mp ((List.dropWhile_sublist _).mem h)

theorem mem_pyStrip {c : Char} {l : List Char} (h : c ∈ pyStrip l) : c ∈ l :=
  mem_trimLeft (mem_trimRight h)

theorem trimLeft_eq_self {l : List Char} (h : headNotSpace l = true) : trimLeft l = l := by
  cases l with
  | nil => rfl
  | cons c t =>
    simp only [headNotSpace, List.head?_cons, Bool.not_eq_true'] at h
    exact trimLeft_cons_of_not_space h

theorem trimRight_eq_self {l : List Char} (h : lastNotSpace l = true) : trimRight l = l := by
  unfold trimRight
  rcases hr : l.reverse with _ | ⟨c, t⟩
  · simpa using congrArg List.reverse hr
  · have hc : isSpace c = false := by
      have : l.getLast? = some c := by
        rw [← List.head?_reverse, hr, List.head?_cons]
      simp only [lastNotSpace, this, Bool.not_eq_true'] at h
      exact h
    rw [List.dropWhile_cons, if_neg (by simp [hc])]
    rw [← hr, List.reverse_reverse]

theorem pyStrip_eq_self {l : List Char} (hh : headNotSpace l = true)
    (hl : lastNotSpace l = true) : pyStrip l = l := by
  rw [pyStrip, trimLeft_eq_self hh, trimRight_eq_self hl]

theorem headNotSpace_trimLeft (l : List Char) : headNotSpace (trimLeft l) = true := by
  rcases h : trimLeft l with _ | ⟨c, t⟩
  · rfl
  · have := dropWhile_head_false (p := isSpace) _ h
    simp [headNotSpace, this]

theorem lastNotSpace_trimRight (l : List Char) : lastNotSpace (trimRight l) = true := by
  unfold trimRight
  rcases h : l.reverse.dropWhile isSpace with _ | ⟨c, t⟩
  · rfl
  · have hc := dropWhile_head_false (p := isSpace) _ h
    have : (c :: t).reverse.getLast? = some c := by
      rw [← List.head?_reverse, List.reverse_reverse, List.head?_cons]
    simp [lastNotSpace, this, hc]

theorem headNotSpace_trimRight_of {m : List Char} (h : headNotSpace m = true) :
    headNotSpace (trimRight m) = true := by
  cases m with
  | nil => rfl
  | cons c t =>
    simp only [headNotSpace, List.head?_cons, Bool.not_eq_true'] at h
    rw [trimRight_cons_of_not_space h]
    simp [headNotSpace, h]

theorem headNotSpace_pyStrip (l : List Char) : headNotSpace (pyStrip l) = true :=
  headNotSpace_trimRight_of (headNotSpace_trimLeft l)

theorem lastNotSpace_pyStrip (l : List Char) : lastNotSpace (pyStrip l) = true :=
  lastNotSpace_trimRight (trimLeft l)

theorem noTwoSpaces_tail {c : Char} {l : List Char} (h : noTwoSpaces (c :: l) = true) :
    noTwoSpaces l = true := by
  cases l with
  | nil => rfl
  | cons b r =>
    simp only [noTwoSpaces, Bool.and_eq_true] at h
    exact h.2

theorem noTwoSpaces_dropWhile {p : Char → Bool} :
    ∀ {l : List Char}, noTwoSpaces l = true → noTwoSpaces (l.dropWhile p) = true := by
  intro l
  induction l with
  | nil => intro h; exact h
  | cons c t ih =>
    intro h
    by_cases hc : p c
    · rw [List.dropWhile_cons, if_pos hc]
      exact ih (noTwoSpaces_tail h)
    · rwa [List.dropWhile_cons, if_neg hc]

theorem noTwoSpaces_take : ∀ (l : List Char) (k : Nat),
    noTwoSpaces l = true → noTwoSpaces (l.take k) = true := by
  intro l
  induction l with
  | nil => intro k h; simpa using h
  | cons c t ih =>
    intro k h
    cases k with
    | zero => rfl
    | succ k =>
      rw [List.take_succ_cons]
      cases t with
      | nil => simp [noTwoSpaces]
      | cons d t2 =>
        cases k with
        | zero => simp [noTwoSpaces]
        | succ k2 =>
          rw [List.take_succ_cons]
          have hsplit : (!(isSpace c && isSpace d)) = true ∧ noTwoSpaces (d :: t2) = true := by
            simpa only [noTwoSpaces, Bool.and_eq_true] using h
          have h2 := ih (k2 + 1) (noTwoSpaces_tail h)
          rw [List.take_succ_cons] at h2
          simp only [noTwoSpaces, Bool.and_eq_true]
          exact ⟨hsplit.1, h2⟩

theorem dropWhile_as_drop {p : Char → Bool} :
    ∀ l : List Char, l.dropWhile p = l.drop (l.takeWhile p).length := by
  intro l
  induction l with
  | nil => rfl
  | cons c t ih =>
    by_cases hc : p c
    · simp [List.dropWhile_cons, List.takeWhile_cons, hc, ih]
    · simp [List.dropWhile_cons, List.takeWhile_cons, hc]

theorem trimRight_eq_take (l : List Char) :
    trimRight l = l.take (l.length - (l.reverse.takeWhile isSpace).length) := by
  rw [trimRight, dropWhile_as_drop, List.reverse_drop, List.reverse_reverse,
    List.length_reverse]

theorem noTwoSpaces_trimRight {l : List Char} (h : noTwoSpaces l = true) :
    noTwoSpaces (trimRight l) = true := by
  rw [trimRight_eq_take]
  exact noTwoSpaces_take l _ h

theorem noTwoSpaces_pyStrip {l : List Char} (h : noTwoSpaces l = true) :
    noTwoSpaces (pyStrip l) = true :=
  noTwoSpaces_trimRight (noTwoSpaces_dropWhile h)

theorem mem_collapseWs {c : Char} :
    ∀ {l : List Char}, c ∈ collapseWs l → c ∈ l ∨ c = ' ' := by
  intro l
  induction l with
  | nil => intro h; simp [collapseWs] at h
  | cons c1 t ih =>
    intro h
    cases t with
    | nil =>
      by_cases h1 : isSpace c1
      · simp only [collapseWs, if_pos h1, List.mem_singleton] at h
        exact Or.inr h
      · simp only [collapseWs, if_neg h1, List.mem_singleton] at h
        exact Or.inl (h ▸ List.mem_singleton_self c1)
    | cons c2 r =>
      by_cases hb : isSpace c1 && isSpace c2
      · rw [collapseWs, if_pos hb] at h
        rcases ih h with h2 | h2
        · exact Or.inl (List.mem_cons_of_mem _ h2)
        · exact Or.inr h2
      · rw [collapseWs, if_neg hb] at h
        rcases List.mem_cons.mp h with h2 | h2
        · by_cases h1 : isSpace c1
          · rw [h2, if_pos h1]; exact Or.inr rfl
          · rw [h2, if_neg h1]; exact Or.inl (List.mem_cons_self _ _)
        · rcases ih h2 with h3 | h3
          · exact Or.inl (List.mem_cons_of_mem _ h3)
          · exact Or.inr h3

theorem collapseWs_space_is_blank {c : Char} :
    ∀ {l : List Char}, c ∈ collapseWs l → isSpace c = true → c = ' ' := by
  intro l
  induction l with
  | nil => intro h _; simp [collapseWs] at h
  | cons c1 t ih =>
    intro h hsp
    cases t with
    | nil =>
      by_cases h1 : isSpace c1
      · simpa only [collapseWs, if_pos h1, List.mem_singleton] using h
      · rw [collapseWs, if_neg h1, List.mem_singleton] at h
        rw [h] at hsp
        exact absurd hsp (by simp [h1])
    | cons c2 r =>
      by_cases hb : isSpace c1 && isSpace c2
      · rw [collapseWs, if_pos hb] at h
        exact ih h hsp
      · rw [collapseWs, if_neg hb] at h
        rcases List.mem_cons.mp h with h2 | h2
        · by_cases h1 : isSpace c1
          · rw [h2, if_pos h1]
          · rw [h2, if_neg h1] at hsp
            exact absurd hsp (by simp [h1])
        · exact ih h2 hsp

theorem collapseWs_noTwo_head :
    ∀ l : List Char, noTwoSpaces (collapseWs l) = true ∧
      headIsSpace (collapseWs l) = headIsSpace l := by
  intro l
  induction l with
  | nil => exact ⟨rfl, rfl⟩
  | cons c1 t ih =>
    cases t with
    | nil =>
      by_cases h1 : isSpace c1
      · refine ⟨by simp [collapseWs, if_pos h1, noTwoSpaces], ?_⟩
        rw [collapseWs, if_pos h1]
        simp only [headIsSpace, List.head?_cons, h1]
        decide
      · refine ⟨by simp [collapseWs, if_neg h1, noTwoSpaces], ?_⟩
        simp [collapseWs, if_neg h1, headIsSpace]
    | cons c2 r =>
      by_cases hb : isSpace c1 && isSpace c2
      · rw [collapseWs, if_pos hb]
        refine ⟨ih.1, ?_⟩
        rw [ih.2]
        have hb' : isSpace c1 = true ∧ isSpace c2 = true := by simpa using hb
        simp [headIsSpace, hb'.1, hb'.2]
      · rw [collapseWs, if_neg hb]
        have hhead : headIsSpace ((if isSpace c1 then ' ' else c1) :: collapseWs (c2 :: r))
            = headIsSpace (c1 :: c2 :: r) := by
          by_cases h1 : isSpace c1
          · rw [if_pos h1]
            simp only [headIsSpace, List.head?_cons, h1]
            decide
          · rw [if_neg h1]
            simp [headIsSpace]
        refine ⟨?_, hhead⟩
        rcases hout : collapseWs (c2 :: r) with _ | ⟨b, r2⟩
        · simp [noTwoSpaces]
        · have hb2 : isSpace b = headIsSpace (c2 :: r) := by
            have := ih.2
            rw [hout] at this
            simpa [headIsSpace] using this
          simp only [noTwoSpaces, Bool.and_eq_true]
          constructor
          · simp only [headIsSpace, List.head?_cons] at hb2
            by_cases h1 : isSpace c1
            · have hc2 : isSpace c2 = false := by
                by_cases hc2 : isSpace c2
                · exact absurd (by simp [h1, hc2]) hb
                · simpa using hc2
              rw [if_pos h1]
              rw [hc2] at hb2
              simp [hb2]
            · rw [if_neg h1]
              simp [h1]
          · have := ih.1
            rw [hout] at this
            exact this

theorem collapseWs_eq_self :
    ∀ {l : List Char}, (∀ c ∈ l, isSpace c = true → c = ' ') →
      noTwoSpaces l = true → collapseWs l = l := by
  intro l
  induction l with
  | nil => intro _ _; rfl
  | cons c1 t ih =>
    intro hsp hnt
    cases t with
    | nil =>
      by_cases h1 : isSpace c1
      · rw [collapseWs, if_pos h1, hsp c1 (List.mem_singleton_self c1) h1]
      · rw [collapseWs, if_neg h1]
    | cons c2 r =>
      have hnt2 : (!(isSpace c1 && isSpace c2)) = true ∧ noTwoSpaces (c2 :: r) = true := by
        simpa only [noTwoSpaces, Bool.and_eq_true] using hnt
      have hb : (isSpace c1 && isSpace c2) = false := by
        cases hx : (isSpace c1 && isSpace c2) with
        | false => rfl
        | true =>
          have h3 := hnt2.1
          rw [hx] at h3
          simp at h3
      rw [collapseWs, if_neg (by simp [hb])]
      have ht := ih (fun c hc => hsp c (List.mem_cons_of_mem _ hc)) (noTwoSpaces_tail hnt)
      rw [ht]
      by_cases h1 : isSpace c1
      · rw [if_pos h1, hsp c1 (List.mem_cons_self _ _) h1]
      · rw [if_neg h1]

theorem mem_of_getLast?_eq_some {l : List Char} {x : Char} (h : l.getLast? = some x) :
    x ∈ l := by
  have hx : x ∈ l.getLast? := by rw [h]; rfl
  rcases List.mem_getLast?_eq_getLast hx with ⟨hne, hx2⟩
  exact hx2 ▸ List.getLast_mem hne

theorem mem_basename {c : Char} {l : List Char} (h : c ∈ basename l) : c ∈ l := by
  unfold basename at h
  rw [List.mem_reverse] at h
  exact List.mem_reverse.mp ((List.takeWhile_sublist _).mem h)

theorem basename_no_slash {l : List Char} : '/' ∉ basename l := by
  intro h
  unfold basename at h
  rw [List.mem_reverse] at h
  have := List.mem_takeWhile_imp h
  simp at this

theorem basename_eq_self {l : List Char} (h : '/' ∉ l) : basename l = l := by
  unfold basename
  rw [List.takeWhile_eq_self_iff.mpr]
  · exact List.reverse_reverse l
  · intro x hx
    simp only [decide_eq_true_eq]
    intro hxe
    exact h (hxe ▸ List.mem_reverse.mp hx)

theorem mem_stripExtDollar {c : Char} {l : List Char} (h : c ∈ stripExtDollar l) :
    c ∈ l := by
  unfold stripExtDollar at h
  split at h
  · exact (List.take_sublist _ _).mem h
  · dsimp only at h
    split at h
    · rename_i hl
      split at h
      · rcases List.mem_append.mp h with h2 | h2
        · exact (List.take_sublist _ _).mem ((List.take_sublist _ _).mem h2)
        · rw [List.mem_singleton] at h2
          exact h2 ▸ mem_of_getLast?_eq_some hl
      · exact h
    · exact h

theorem stripExtDollar_eq_self {l : List Char} (hext : extSuffixLen l = none)
    (hnl : '\n' ∉ l) : stripExtDollar l = l := by
  unfold stripExtDollar
  rw [hext]
  dsimp only
  rcases hl : l.getLast? with _ | c2
  · rfl
  · have hc2 : c2 ≠ '\n' := fun he => hnl (he ▸ mem_of_getLast?_eq_some hl)
    split
    · rename_i heq
      exact absurd (by injection heq) hc2
    · rfl

theorem mem_replaceSep3 {c : Char} :
    ∀ {l : List Char}, c ∈ replaceSep3 l → c ∈ l ∨ c = ' ' ∨ c = '-' := by
  intro l
  induction l using replaceSep3.induct with
  | case1 rest2 ih =>
    intro h
    rw [replaceSep3] at h
    rcases List.mem_cons.mp h with h2 | h2
    · exact Or.inr (Or.inl h2)
    · rcases List.mem_cons.mp h2 with h3 | h3
      · exact Or.inr (Or.inr h3)
      · rcases List.mem_cons.mp h3 with h4 | h4
        · exact Or.inr (Or.inl h4)
        · rcases ih h4 with h5 | h5
          · exact Or.inl (by simp [h5])
          · exact Or.inr h5
  | case2 c2 rest hne ih =>
    intro h
    rw [replaceSep3.eq_2 _ _ hne] at h
    rcases List.mem_cons.mp h with h2 | h2
    · exact Or.inl (h2 ▸ List.mem_cons_self _ _)
    · rcases ih h2 with h3 | h3
      · exact Or.inl (List.mem_cons_of_mem _ h3)
      · exact Or.inr h3
  | case3 => intro h; simp [replaceSep3] at h

theorem replaceSep3_eq_self :
    ∀ {l : List Char}, '_' ∉ l → replaceSep3 l = l := by
  intro l
  induction l using replaceSep3.induct with
  | case1 rest2 ih => intro h; simp at h
  | case2 c2 rest hne ih =>
    intro h
    rw [replaceSep3.eq_2 _ _ hne, ih (fun hc => h (List.mem_cons_of_mem _ hc))]
  | case3 => intro _; rfl

theorem mem_replaceUnderscore {c : Char} {l : List Char} (h : c ∈ replaceUnderscore l) :
    c ≠ '_' ∧ (c ∈ l ∨ c = ' ') := by
  rcases List.mem_map.mp h with ⟨d, hd, hde⟩
  by_cases hdu : d = '_'
  · rw [hdu] at hde
    simp only [if_pos rfl] at hde
    exact ⟨by simp [← hde], Or.inr hde.symm⟩
  · rw [if_neg hdu] at hde
    exact ⟨hde ▸ hdu, Or.inl (hde ▸ hd)⟩

theorem replaceUnderscore_eq_self :
    ∀ {l : List Char}, '_' ∉ l → replaceUnderscore l = l := by
  intro l
  induction l with
  | nil => intro _; rfl
  | cons c t ih =>
    intro h
    have hc : c ≠ '_' := fun hc => h (hc ▸ List.mem_cons_self _ _)
    simp only [replaceUnderscore, List.map_cons, if_neg hc]
    rw [show List.map (fun c => if c = '_' then ' ' else c) t = replaceUnderscore t from rfl,
      ih (fun hc => h (List.mem_cons_of_mem _ hc))]

theorem asciiLower_eq_self :
    ∀ {l : List Char}, (∀ c ∈ l, isUpperA c = false) → asciiLower l = l := by
  intro l
  induction l with
  | nil => intro _; rfl
  | cons c t ih =>
    intro h
    simp only [asciiLower, List.map_cons]
    rw [lowerChar_of_not_upper (h c (List.mem_cons_self _ _)),
      show List.map lowerChar t = asciiLower t from rfl,
      ih (fun c2 hc2 => h c2 (List.mem_cons_of_mem _ hc2))]

theorem noTwoSpaces_asciiLower :
    ∀ l : List Char, noTwoSpaces (asciiLower l) = noTwoSpaces l := by
  intro l
  induction l with
  | nil => rfl
  | cons c t ih =>
    cases t with
    | nil => rfl
    | cons d r =>
      simp only [asciiLower, List.map_cons] at ih ⊢
      simp only [noTwoSpaces, lowerChar_isSpace, ih]

theorem headNotSpace_asciiLower (l : List Char) :
    headNotSpace (asciiLower l) = headNotSpace l := by
  cases l with
  | nil => rfl
  | cons c t => simp [headNotSpace, asciiLower, lowerChar_isSpace]

theorem lastNotSpace_eq_head_reverse (l : List Char) :
    lastNotSpace l = headNotSpace l.reverse := by
  rw [lastNotSpace, headNotSpace, List.head?_reverse]

theorem lastNotSpace_asciiLower (l : List Char) :
    lastNotSpace (asciiLower l) = lastNotSpace l := by
  rw [lastNotSpace_eq_head_reverse, lastNotSpace_eq_head_reverse,
    show (asciiLower l).reverse = asciiLower l.reverse from (List.map_reverse _ _).symm,
    headNotSpace_asciiLower]

theorem normCanon_titleClean (l : List Char) :
    NormCanon (asciiLower (titleCleanCore l)) := by
  unfold titleCleanCore
  refine ⟨?_, ?_, ?_, ?_, ?_, ?_, ?_⟩
  · intro c hc hsp
    rcases List.mem_map.mp hc with ⟨d, hd, hde⟩
    rw [← hde, lowerChar_isSpace] at hsp
    have hd2 := collapseWs_space_is_blank (mem_pyStrip hd) hsp
    rw [← hde, hd2]
    decide
  · rw [noTwoSpaces_asciiLower]
    exact noTwoSpaces_pyStrip (collapseWs_noTwo_head _).1
  · intro c hc
    rcases List.mem_map.mp hc with ⟨d, _, hde⟩
    exact hde ▸ lowerChar_isUpperA d
  · intro hc
    rcases List.mem_map.mp hc with ⟨d, hd, hde⟩
    have hd2 : d = '/' := lowerChar_eq_slash hde
    subst hd2
    rcases mem_collapseWs (mem_pyStrip hd) with h2 | h2
    · rcases (mem_replaceUnderscore h2).2 with h3 | h3
      · rcases mem_replaceSep3 h3 with h4 | h4
        · exact absurd (mem_stripExtDollar h4) basename_no_slash
        · rcases h4 with h4 | h4 <;> simp at h4
      · simp at h3
    · simp at h2
  · intro hc
    rcases List.mem_map.mp hc with ⟨d, hd, hde⟩
    have hd2 : d = '_' := lowerChar_eq_underscore hde
    subst hd2
    rcases mem_collapseWs (mem_pyStrip hd) with h2 | h2
    · exact absurd rfl (mem_replaceUnderscore h2).1
    · simp at h2
  · rw [headNotSpace_asciiLower]
    exact headNotSpace_pyStrip _
  · rw [lastNotSpace_asciiLower]
    exact lastNotSpace_pyStrip _

theorem normCanon_nil : NormCanon [] := by
  refine ⟨?_, rfl, ?_, ?_, ?_, rfl, rfl⟩ <;> simp

theorem normCanon_normalize (s : String) : NormCanon (normalize_title s).data := by
  obtain ⟨d⟩ := s
  by_cases h : d = []
  · have h2 : normalize_title ⟨d⟩ = "" := by simp only [normalize_title, h, if_pos]
    rw [h2]
    exact normCanon_nil
  · have h2 : normalize_title ⟨d⟩ = ⟨asciiLower (titleCleanCore d)⟩ := by
      simp only [normalize_title]
      rw [if_neg (by simpa using h)]
    rw [h2]
    exact normCanon_titleClean d

theorem normalize_fix {y : List Char} (hc : NormCanon y)
    (hext : extSuffixLen y = none) : normalize_title ⟨y⟩ = ⟨y⟩ := by
  obtain ⟨hsp, hnt, hup, hsl, hus, hh, hl⟩ := hc
  by_cases hy : y = []
  · subst hy; rfl
  · have hnl : '\n' ∉ y := by
      intro h
      have := hsp '\n' h (by decide)
      exact absurd this (by decide)
    have h2 : normalize_title ⟨y⟩ = ⟨asciiLower (titleCleanCore y)⟩ := by
      simp only [normalize_title]
      rw [if_neg (by simpa using hy)]
    rw [h2]
    unfold titleCleanCore
    rw [pyStrip_eq_self hh hl, basename_eq_self hsl,
      stripExtDollar_eq_self hext hnl, replaceSep3_eq_self hus,
      replaceUnderscore_eq_self hus, collapseWs_eq_self hsp hnt,
      pyStrip_eq_self hh hl, asciiLower_eq_self hup]

/-- Claim C1: on an engine log whose preprocess lines yield titles
`["A","B","C","A","D"]`, with current title `"A"` and limit 3, the upcoming
reconstruction scans backward to the last `"A"` and returns ok with
upcoming `["D"]` (the elements strictly after the last `"A"`, deduplicated
and truncated), excluding `B` and `C`. -/
theorem claim_c1_upcoming_after_last_current :
    (extract_preprocess_titles preprocessLogA).titles = ["A", "B", "C", "A", "D"] ∧
    compute_upcoming_from_preprocess preprocessLogA (some "A") 3 =
      ⟨true, "engine_logs_after_current", none, some true, some "A", ["D"]⟩ := by
  decide

/-- Claim C2 (counterexample): normalization is not idempotent on the code —
for the double extension `"a.mp3.mp3"` one pass strips only the outer
extension, so a second pass changes the string again. -/
theorem claim_c2_counterexample :
    normalize_title (normalize_title "a.mp3.mp3") ≠ normalize_title "a.mp3.mp3" := by
  decide

/-- Claim C2 (amended): normalization is idempotent on every input whose
normalized form does not itself end in an audio extension; only inputs with
nested extensions (for example `a.mp3.mp3`) escape. -/
theorem claim_c2_normalize_idempotent_unless_ext (s : String)
    (h : extSuffixLen (normalize_title s).data = none) :
    normalize_title (normalize_title s) = normalize_title s := by
  have h2 := normalize_fix (normCanon_normalize s) h
  exact h2

/-- Witness for C2 at `"A_b.mp3"`: the normalized form `"a b"` has no audio
extension, and normalization fixes it. -/
theorem claim_c2_witness :
    extSuffixLen (normalize_title "A_b.mp3").data = none ∧
    normalize_title (normalize_title "A_b.mp3") = normalize_title "A_b.mp3" :=
  ⟨by decide, claim_c2_normalize_idempotent_unless_ext "A_b.mp3" (by decide)⟩

/-- Claim C3 (counterexample): a limit of 0 is not clamped to 1 — on the same
log and current title, limits 0 and 1 give different results. -/
theorem claim_c3_counterexample :
    compute_upcoming_from_preprocess "preprocess: A" none 0 ≠
      compute_upcoming_from_preprocess "preprocess: A" none 1 := by
  decide

/-- Claim C3 (amended): no clamping is performed — the limit is applied as a
Python slice bound or a length comparison.  With limit 0 the preprocess
reconstruction always returns an empty upcoming list, while the scheduler
reconstruction stops only after its first retained entry (at most one
element), so neither behaves like a call with limit 1. -/
theorem claim_c3_limit_zero_not_clamped (txt : String) (cur : Option String) :
    (compute_upcoming_from_preprocess txt cur 0).upcoming = [] ∧
    (compute_upcoming_from_scheduler_next txt cur 0).upcoming.length ≤ 1 :=
  ⟨upcoming_preprocess_zero txt cur, upcoming_sched_zero txt cur⟩

/-- Claim C4 (code bug evaluation): on a log whose last matching stream-start
line has no parseable leading timestamp, the code returns that line together
with the timestamp of the EARLIER matching line (`last_ts` is never reset),
and computes `recent` from that stale timestamp — the claim requires
`recent = false` and an unknown age in this situation. -/
theorem claim_c4_stale_timestamp_eval :
    (last_engine_stream_start streamLogStale nowStale 10).line =
      some "BUS STREAM_START src=playbin" ∧
    (last_engine_stream_start streamLogStale nowStale 10).ts =
      parse_sched_ts "2030-01-01 00:00:00,000" ∧
    parse_sched_ts "2030-01-01 00:00:00,000" ≠ none ∧
    (last_engine_stream_start streamLogStale nowStale 10).age_s = some 5 ∧
    (last_engine_stream_start streamLogStale nowStale 10).recent = true := by
  decide

/-- Claim C5: the playlist correlator returns an ok/null result when the
normalized current title is empty or there are no entries; otherwise the
last entry (backward scan) whose normalized title matches supplies the
playlist and the matched entry; no match gives an ok/null result. -/
theorem claim_c5_playlist_correlator (txt : String) (cur : Option String)
    (hok : (extract_scheduler_next_entries txt).ok = true) :
    ((normalize_title (cur.getD "") = "" ∨ (extract_scheduler_next_entries txt).entries = []) →
      infer_playlist_for_title_from_scheduler txt cur =
        ⟨true, none, none, none, cur, some (normalize_title (cur.getD ""))⟩) ∧
    (∀ e, (extract_scheduler_next_entries txt).entries.reverse.find?
        (fun e2 => e2.title_norm == normalize_title (cur.getD "")) = some e →
      ¬(normalize_title (cur.getD "") = "" ∨ (extract_scheduler_next_entries txt).entries = []) →
      infer_playlist_for_title_from_scheduler txt cur =
        ⟨true, none, some e.playlist, some e, cur, some (normalize_title (cur.getD ""))⟩) ∧
    ((extract_scheduler_next_entries txt).entries.reverse.find?
        (fun e2 => e2.title_norm == normalize_title (cur.getD "")) = none →
      infer_playlist_for_title_from_scheduler txt cur =
        ⟨true, none, none, none, cur, some (normalize_title (cur.getD ""))⟩) := by
  unfold infer_playlist_for_title_from_scheduler
  dsimp only
  rw [if_neg (by simp [hok])]
  refine ⟨fun h => ?_, fun e he hn => ?_, fun hnone => ?_⟩
  · rw [if_pos h]
  · rw [if_neg hn, he]
  · by_cases h : normalize_title (cur.getD "") = "" ∨
        (extract_scheduler_next_entries txt).entries = []
    · rw [if_pos h]
    · rw [if_neg h, hnone]

/-- Witness for C5: the spec's Scenario B — titles `x`,`y`,`z` with playlists
`morning`,`morning`,`evening` and current title `y` correlate to playlist
`morning`. -/
theorem claim_c5_witness :
    (infer_playlist_for_title_from_scheduler schedLogB (some "y")).playlist =
      some "morning" := by
  have h := (claim_c5_playlist_correlator schedLogB (some "y") (by decide)).2.1
    ⟨"2024-01-01 10:05:00,000", "y", "y", "y", "morning"⟩ (by decide) (by decide)
  rw [h]

/-- Claim C6: whenever the current title is absent from the reconstructed
sequence (or empty), both reconstructions flag the fallback-tail path
(`*_fallback_tail` source, `current_title_found = false`) and the candidate
window is the last `limit * k` elements of the sequence, with `k = 4` for the
engine preprocess path and `k = 8` for the scheduler path (both within the
spec's 3..8 range). -/
theorem claim_c6_fallback_flagged :
    (∀ (txt : String) (cur : Option String) (n : Int),
      (extract_preprocess_titles txt).ok = true →
      (extract_preprocess_titles txt).titles.filter (fun t => pyStripS t != "") ≠ [] →
      (pyStripS (cur.getD "") = "" ∨
        ∀ t ∈ (extract_preprocess_titles txt).titles.filter (fun t => pyStripS t != ""),
          pyStripS t ≠ pyStripS (cur.getD "")) →
      (compute_upcoming_from_preprocess txt cur n).ok = true ∧
      (compute_upcoming_from_preprocess txt cur n).source = "engine_logs_fallback_tail" ∧
      (compute_upcoming_from_preprocess txt cur n).current_title_found = some false ∧
      (1 ≤ n → (compute_upcoming_from_preprocess txt cur n).upcoming =
        (dedupe_keep_order
          (((extract_preprocess_titles txt).titles.filter (fun t => pyStripS t != "")).drop
            (((extract_preprocess_titles txt).titles.filter (fun t => pyStripS t != "")).length
              - (n * 4).toNat))).take n.toNat)) ∧
    (∀ (txt : String) (cur : Option String) (n : Int),
      (extract_scheduler_next_entries txt).ok = true →
      (extract_scheduler_next_entries txt).entries ≠ [] →
      (normalize_title (cur.getD "") = "" ∨
        ∀ e ∈ (extract_scheduler_next_entries txt).entries,
          e.title_norm ≠ normalize_title (cur.getD "")) →
      (compute_upcoming_from_scheduler_next txt cur n).ok = true ∧
      (compute_upcoming_from_scheduler_next txt cur n).source =
        "scheduler_logs_fallback_tail" ∧
      (compute_upcoming_from_scheduler_next txt cur n).current_title_found = some false ∧
      (1 ≤ n → (compute_upcoming_from_scheduler_next txt cur n).upcoming =
        schedLoop n [] 0 ((extract_scheduler_next_entries txt).entries.drop
          ((extract_scheduler_next_entries txt).entries.length - (n * 8).toNat)))) :=
  ⟨fun txt cur n h1 h2 h3 => preprocess_fallback_core txt cur n h1 h2 h3,
   fun txt cur n h1 h2 h3 => sched_fallback_core txt cur n h1 h2 h3⟩

/-- Witness for C6: a two-title log with an absent current title falls back,
is flagged, and serves the deduplicated tail window cut to the limit. -/
theorem claim_c6_witness :
    (compute_upcoming_from_preprocess "preprocess: A\npreprocess: B" (some "Z") 1).source
      = "engine_logs_fallback_tail" ∧
    (compute_upcoming_from_preprocess "preprocess: A\npreprocess: B" (some "Z") 1).current_title_found
      = some false ∧
    (compute_upcoming_from_preprocess "preprocess: A\npreprocess: B" (some "Z") 1).upcoming
      = ["A"] := by
  obtain ⟨h1, h2, h3, h4⟩ := claim_c6_fallback_flagged.1
    "preprocess: A\npreprocess: B" (some "Z") 1 (by decide) (by decide)
    (Or.inr (by decide))
  refine ⟨h2, h3, ?_⟩
  rw [h4 le_rfl]
  decide

/-- Claim C7 (counterexample): `_dedupe_keep_order` does not drop empty keys —
an empty string is retained at its first occurrence. -/
theorem claim_c7_counterexample : dedupe_keep_order [""] = [""] := by
  decide

/-- Claim C7 (amended): both deduplication steps are stable order-preserving
filters.  `_dedupe_keep_order`: no duplicates, a sublist of the input with
the same members, ordered by first-occurrence index (so each retained element
is the first occurrence of its key) — but an empty string is retained, not
dropped.  The inline scheduler dedup: the output is the image of a
duplicate-key-free, empty-key-free sublist `ks` of the window, and every
retained entry sits at a position of the window with no same-key entry
before it (first occurrence of its key wins — a last-wins dedup is excluded),
with the earlier retained entries embedded before that position and the later
ones after it, so the relative order of retained entries is their
first-occurrence order. -/
theorem claim_c7_dedupe_stable_filter :
    (∀ l : List String,
      (dedupe_keep_order l).Nodup ∧
      (dedupe_keep_order l).Sublist l ∧
      (∀ x, x ∈ dedupe_keep_order l ↔ x ∈ l) ∧
      (dedupe_keep_order l).Pairwise (fun a b => l.indexOf a < l.indexOf b)) ∧
    (∀ (n : Int) (seq : List SchedEntryView),
      ∃ ks : List SchedEntryView,
        ks.Sublist seq ∧
        (∀ e ∈ ks, pyStripS e.title_norm ≠ "") ∧
        (ks.map (fun e => pyStripS e.title_norm)).Nodup ∧
        (∀ l1 e l2, ks = l1 ++ e :: l2 →
          ∃ s1 s2, seq = s1 ++ e :: s2 ∧
            (∀ e2 ∈ s1, pyStripS e2.title_norm ≠ pyStripS e.title_norm) ∧
            l1.Sublist s1 ∧ l2.Sublist s2) ∧
        schedLoop n [] 0 seq = ks.map mkUpOut) := by
  constructor
  · intro l
    refine ⟨nodup_dedupeKeepOrderAux l [], sublist_dedupeKeepOrderAux l [], ?_,
      pairwise_indexOf_dedupeKeepOrderAux l []⟩
    intro x
    rw [dedupe_keep_order, mem_dedupeKeepOrderAux l []]
    simp
  · intro n seq
    obtain ⟨ks, h1, h2, h3, h5, h4⟩ := schedLoop_kept seq n [] 0
    exact ⟨ks, h1, fun e he => (h2 e he).1, h3, h5, h4⟩

/-- Claim C8: the extractor on empty log text returns the structured failure
`ok = false`, `error = "empty logs"`, `titles = []` (a value, not an
exception — the embedding is a total function). -/
theorem claim_c8_empty_logs_structured_failure :
    extract_preprocess_titles "" = ⟨false, "engine_logs", some "empty logs", [], 0⟩ := by
  decide

/-- Claim C9: display cleaning of
`"derrick_howard_-_behold_i_live_[1973].mp3"` yields exactly
`"derrick howard - behold i live [1973]"`. -/
theorem claim_c9_display_roundtrip :
    display_title "derrick_howard_-_behold_i_live_[1973].mp3" =
      "derrick howard - behold i live [1973]" := by
  decide

/-- Claim C10: the matching key is exactly the lowercased display string —
`normalize_title s = (display_title s).lower()` for every input; the two
pipelines share all cleaning steps and differ only in the final lowering. -/
theorem claim_c10_normalize_eq_lower_display (s : String) :
    normalize_title s = pyLower (display_title s) := by
  obtain ⟨d⟩ := s
  by_cases h : d = []
  · subst h
    decide
  · have h1 : normalize_title ⟨d⟩ = ⟨asciiLower (titleCleanCore d)⟩ := by
      simp only [normalize_title]
      rw [if_neg (by simpa using h)]
    have h2 : display_title ⟨d⟩ = ⟨titleCleanCore d⟩ := by
      simp only [display_title]
      rw [if_neg (by simpa using h)]
    rw [h1, h2]
    rfl
